import Mathlib

set_option maxRecDepth 8000

/-!
A verification development for the expense-ledger core of the
Personal-Finance-Tracker repository (`src/finance_tracker.py`).

The ledger file is modelled as an optional list of lines
(`none` = the backing file does not exist).  Record fields are strings, as
produced by Python's `csv` module.  Python `float` values are modelled as
rational numbers together with an explicit IEEE-754 binary64 rounding
function (`roundB64`); `float` addition is `fadd a b = roundB64 (a + b)`,
which is exactly the correctly-rounded binary64 addition for values in the
normal range.  Overflow to infinity, subnormal underflow, `inf`/`nan`
literals and underscore separators accepted by Python's `float()` are
outside the range exercised by any theorem below and are not modelled.
-/

/-! ## Character-level utilities -/

/-- Split a character list on a separator character (like `str.split(sep)` /
`String.splitOn`): always returns at least one (possibly empty) part. -/
def splitOnCh (sep : Char) : List Char → List (List Char)
  | [] => [[]]
  | c :: r =>
    let rest := splitOnCh sep r
    if c = sep then [] :: rest else (c :: rest.headD []) :: rest.tail

/-- The whitespace characters stripped by Python's `str.strip()` (ASCII part). -/
def isSpaceCh (c : Char) : Bool :=
  c = ' ' || c = '\t' || c = '\n' || c = '\r' || c = '\x0b' || c = '\x0c'

/-- Python `str.strip()` on a character list. -/
def trimCh (l : List Char) : List Char :=
  ((l.dropWhile isSpaceCh).reverse.dropWhile isSpaceCh).reverse

/-- Python `str.strip()` on a string. -/
def pyStrip (s : String) : String := String.mk (trimCh s.data)

/-- All characters are ASCII decimal digits. -/
def allDigits (l : List Char) : Bool := l.all Char.isDigit

/-- Numeric value of a digit string (most significant first). -/
def natOfDigits (l : List Char) : ℕ := l.foldl (fun n c => 10 * n + (c.toNat - 48)) 0

/-! ## Date parsing: `parse_date` (source lines 42-47)

`datetime.strptime(date_str, "%Y-%m-%d")`: `%Y` matches exactly four digits,
`%m` and `%d` one or two digits, the whole string must be consumed, and the
resulting triple must be a valid proleptic-Gregorian calendar date with
year ≥ 1 (otherwise `ValueError`, modelled as `none`). -/

def isLeap (y : ℕ) : Bool := y % 4 = 0 && (y % 100 != 0 || y % 400 = 0)

def daysInMonth (y m : ℕ) : ℕ :=
  if m = 2 then (if isLeap y then 29 else 28)
  else if m = 4 ∨ m = 6 ∨ m = 9 ∨ m = 11 then 30 else 31

def parse_dateCh (l : List Char) : Option (ℕ × ℕ × ℕ) :=
  match splitOnCh '-' l with
  | [ys, ms, ds] =>
    if ys.length = 4 && allDigits ys &&
       decide (1 ≤ ms.length) && decide (ms.length ≤ 2) && allDigits ms &&
       decide (1 ≤ ds.length) && decide (ds.length ≤ 2) && allDigits ds then
      let y := natOfDigits ys
      let m := natOfDigits ms
      let d := natOfDigits ds
      if 1 ≤ y ∧ 1 ≤ m ∧ m ≤ 12 ∧ 1 ≤ d ∧ d ≤ daysInMonth y m then
        some (y, m, d)
      else none
    else none
  | _ => none

/-- `parse_date` from the source: parse `YYYY-MM-DD`, `none` on `ValueError`. -/
def parse_date (s : String) : Option (ℕ × ℕ × ℕ) := parse_dateCh s.data

/-! ## Decimal parsing: Python's `float(string)` literal syntax

`float()` strips whitespace and accepts `[sign] (digits [. digits] | . digits)
[(e|E) [sign] digits]`.  The returned value here is the exact decimal value as
a rational; the binary64 value Python actually produces is `roundB64` of it. -/

def stripSign : List Char → (Bool × List Char)
  | '-' :: r => (true, r)
  | '+' :: r => (false, r)
  | l => (false, l)

def parseUnsignedDec (l : List Char) : Option ℚ :=
  match splitOnCh '.' l with
  | [a] => if a ≠ [] && allDigits a then some (natOfDigits a) else none
  | [a, b] =>
    if (a ≠ [] || b ≠ []) && allDigits a && allDigits b then
      some (mkRat (natOfDigits a * 10 ^ b.length + natOfDigits b) (10 ^ b.length))
    else none
  | _ => none

def parseExp (l : List Char) : Option ℤ :=
  let p := stripSign l
  if p.2 ≠ [] && allDigits p.2 then
    some (if p.1 then -(natOfDigits p.2 : ℤ) else (natOfDigits p.2 : ℤ))
  else none

/-- Multiply a rational by `10^ex` (kernel-evaluable form of `q * 10 ^ ex`). -/
def scale10 (q : ℚ) (ex : ℤ) : ℚ :=
  match ex with
  | Int.ofNat t => mkRat (q.num * 10 ^ t) q.den
  | Int.negSucc t => mkRat q.num (q.den * 10 ^ (t + 1))

def parseDecimalCh (l0 : List Char) : Option ℚ :=
  let l1 := trimCh l0
  let p := stripSign l1
  match splitOnCh 'e' (p.2.map (fun c => if c = 'E' then 'e' else c)) with
  | [m] => (parseUnsignedDec m).map (fun q => if p.1 then -q else q)
  | [m, e] =>
    match parseUnsignedDec m, parseExp e with
    | some q, some ex => some (scale10 (if p.1 then -q else q) ex)
    | _, _ => none
  | _ => none

/-- The exact decimal value of a Python `float(...)` literal string. -/
def parseDecimal (s : String) : Option ℚ := parseDecimalCh s.data

/-! ## IEEE-754 binary64 rounding (Python `float` semantics)

A positive rational `n/d` is scaled by powers of two into the binade
`[2^52, 2^53)`, rounded to the nearest 53-bit integer (ties to even), and
scaled back.  This is exactly the IEEE-754 round-to-nearest-even map onto
binary64 values, for results in the normal range; `fadd` is then exactly
Python's correctly-rounded `float` addition there.  All arithmetic is kept
in `ℕ`/`ℤ`/`mkRat` form so that concrete instances evaluate by `decide`;
the bridging lemmas below restate everything in ordinary `ℚ` algebra. -/

/-- Scale the fraction `n / d` (positive) into the binade `[2^52, 2^53)` by
doubling `n` or `d`, in chunks of `2^32`, `2^8` and `2`; `k` records the
net number of doublings, so `n' / d' = (n / d) * 2^k'` throughout. -/
def normNat (fuel : ℕ) : ℕ → ℕ → ℤ → ℕ × ℕ × ℤ :=
  Nat.rec (motive := fun _ => ℕ → ℕ → ℤ → ℕ × ℕ × ℤ)
    (fun n d k => (n, d, k))
    (fun _ ih n d k =>
      if n < 1048576 * d then ih (4294967296 * n) d (k + 32)
      else if n < 17592186044416 * d then ih (256 * n) d (k + 8)
      else if n < 4503599627370496 * d then ih (2 * n) d (k + 1)
      else if 38685626227668133590597632 * d ≤ n then ih n (4294967296 * d) (k - 32)
      else if 2305843009213693952 * d ≤ n then ih n (256 * d) (k - 8)
      else if 9007199254740992 * d ≤ n then ih n (2 * d) (k - 1)
      else (n, d, k)) fuel

/-- Round `n / d` (with `d > 0`) to the nearest natural number, ties to
even: the IEEE-754 default rounding on nonnegative values. -/
def rnTieNat (n d : ℕ) : ℕ :=
  let fl := n / d
  let r := n % d
  if 2 * r < d then fl else if d < 2 * r then fl + 1
  else if fl % 2 = 0 then fl else fl + 1

/-- Enough fuel to normalize any positive rational. -/
def fuelFor (q : ℚ) : ℕ := 53 + q.num.natAbs + q.den

/-- Round a positive rational to the nearest binary64 value. -/
def roundPos (q : ℚ) : ℚ :=
  let r := normNat (fuelFor q) q.num.natAbs q.den 0
  let m := rnTieNat r.1 r.2.1
  match r.2.2 with
  | Int.ofNat t => mkRat m (2 ^ t)
  | Int.negSucc t => ((m * 2 ^ (t + 1) : ℕ) : ℚ)

/-- Round a rational to the nearest binary64 value (normal range; overflow
and subnormal underflow are outside every input considered here). -/
def roundB64 (q : ℚ) : ℚ :=
  if 0 < q then roundPos q else if q < 0 then -roundPos (-q) else 0

/-- Rational addition in kernel-evaluable form; `qadd_eq_add` proves it
equal to `+`. -/
def qadd (a b : ℚ) : ℚ := mkRat (a.num * b.den + b.num * a.den) (a.den * b.den)

/-- Python `float` addition: correctly rounded binary64 addition. -/
def fadd (a b : ℚ) : ℚ := roundB64 (qadd a b)

/-- Round `n / d` (with `d > 0`, `n` of either sign) to the nearest
integer, ties to even. -/
def rnTieInt (n : ℤ) (d : ℕ) : ℤ :=
  let fl := Int.fdiv n d
  let r := n - d * fl
  if 2 * r < d then fl else if (d : ℤ) < 2 * r then fl + 1
  else if fl % 2 = 0 then fl else fl + 1

/-- Two-decimal display rounding: the value printed by `f"{x:.2f}"`
(round half to even on the exact binary value). -/
def round2 (q : ℚ) : ℚ := mkRat (rnTieInt (q.num * 100) q.den) 100

/-- A rational representable as a binary64 value of the model: a dyadic
with significand of at most 53 bits (the exponent is unbounded: the model
has no overflow or subnormal range). -/
def B64Repr (q : ℚ) : Prop :=
  ∃ m j : ℤ, q = (m : ℚ) * (2 : ℚ) ^ (-j) ∧ m.natAbs ≤ 2 ^ 53

/-! ## CSV layer (Python `csv` module, default dialect)

`csv.writer` quotes a field iff it contains the delimiter, the quote
character, or a line break (and quotes a lone empty field), doubling
embedded quotes.  `csv.reader` is the matching state machine; in its
default non-strict mode, text following a closing quote is appended to the
field.  Fields handled here contain no line break (values obtained from
`input()` never do), so one record is one line. -/

def needsQuoteCh (f : List Char) : Bool :=
  f.any (fun c => c = ',' || c = '"' || c = '\n' || c = '\r')

def escapeCh : List Char → List Char
  | [] => []
  | c :: t => if c = '"' then '"' :: '"' :: escapeCh t else c :: escapeCh t

def quoteFieldCh (f : List Char) : List Char :=
  if needsQuoteCh f then '"' :: (escapeCh f ++ ['"']) else f

/-- One row as written by `csv.writer.writerow`. -/
def writeRowCh : List (List Char) → List Char
  | [] => []
  | [f] => if f = [] then ['"', '"'] else quoteFieldCh f
  | f :: rest => quoteFieldCh f ++ ',' :: writeRowCh rest

/-- The `csv.reader` field state machine on one line: `buf` is the current
field (reversed processing is avoided; appended at the end), `quoted`
tells whether we are inside a quoted section. -/
def parseRowAux : List Char → List Char → Bool → List (List Char)
  | [], buf, _ => [buf]
  | ['"'], buf, true => [buf]
  | '"' :: c2 :: r2, buf, true =>
    if c2 = '"' then parseRowAux r2 (buf ++ ['"']) true
    else if c2 = ',' then buf :: parseRowAux r2 [] false
    else parseRowAux r2 (buf ++ [c2]) false
  | c :: r, buf, true => parseRowAux r (buf ++ [c]) true
  | c :: r, buf, false =>
    if c = ',' then buf :: parseRowAux r [] false
    else if c = '"' ∧ buf = [] then parseRowAux r [] true
    else parseRowAux r (buf ++ [c]) false

/-- One line as parsed by `csv.reader` (an empty line is the empty row). -/
def parseRowCh (l : List Char) : List (List Char) :=
  if l = [] then [] else parseRowAux l [] false

def writeRowStr (fs : List String) : String := String.mk (writeRowCh (fs.map String.data))

def parseRowStr (s : String) : List String := (parseRowCh s.data).map String.mk

/-! ## Records and the ledger store

A stored record is a dict keyed by the four header fields
(`csv.DictReader` over the ledger file); the file system is `Option
(List String)`: `none` when `expenses.csv` does not exist.  All fields are
strings, exactly as the Python code holds them. -/

/-- One expense record: the four string fields of a `DictReader` row. -/
structure Expense where
  date : String
  category : String
  description : String
  amount : String
deriving DecidableEq

/-- The row written for a record, in header-field order
(`csv.DictWriter` with `fieldnames = ["date", "category", "description",
"amount"]`, and the `row` list built in `add_expense`). -/
def toRow (e : Expense) : List String := [e.date, e.category, e.description, e.amount]

/-- No field of the record contains a line break.  Values obtained from
`input()` never do; this is what lets one record occupy one line of the
file model. -/
def lineSafe (e : Expense) : Bool :=
  (toRow e).all (fun s => !s.data.any (fun c => c = '\n' || c = '\r'))

/-- The ledger file: `none` when `expenses.csv` does not exist. -/
abbrev FS := Option (List String)

/-- The header row written by `ensure_file_exists` (source lines 28-39). -/
def headerLine : String := writeRowStr ["date", "category", "description", "amount"]

/-- `ensure_file_exists` (source lines 28-39): create the file with the
header row only when it is missing, otherwise leave it untouched. -/
def ensure_file_exists : FS → FS
  | none => some [headerLine]
  | some ls => some ls

/-- A line as consumed by `csv.reader` inside `DictReader`: blank lines
yield the empty row, which `DictReader` skips. -/
def parseNonEmptyLine (l : String) : Option (List String) :=
  if l = "" then none else some (parseRowStr l)

/-- `csv.DictReader` over the file body: the first line is the header
(field names), every following non-blank line is one row. -/
def read_lines (lines : List String) : List (List String) :=
  lines.tail.filterMap parseNonEmptyLine

/-- `read_all_expenses` (source lines 120-137): missing file gives `[]`;
otherwise every data row of the file, in order.  Total: a malformed line
is returned as its parsed fields, never an error. -/
def read_all_expenses : FS → List (List String)
  | none => []
  | some lines => read_lines lines

/-- The `"date"` field of a stored row (`exp["date"]`). -/
def rowDate (row : List String) : String := row.getD 0 ""

/-- `get_monthly_expenses` (source lines 159-176): keep the rows whose
date parses and falls in the given year and month; a row whose date fails
to parse is skipped (`except ValueError: continue`). -/
def get_monthly_expenses (fs : FS) (year month : ℕ) : List (List String) :=
  (read_all_expenses fs).filterMap (fun exp =>
    match parse_date (rowDate exp) with
    | none => none
    | some d => if d.1 = year ∧ d.2.1 = month then some exp else none)

/-- The file effect of `add_expense` (source lines 104-117): append one
serialized row; `open(..., mode="a")` creates the file when missing. -/
def add_expense_row (fs : FS) (e : Expense) : FS :=
  some ((fs.getD []) ++ [writeRowStr (toRow e)])

/-- Decimal digits of `n`, most significant first (`str(n)` for a
nonnegative int); the fuel argument makes it structurally recursive. -/
def natDigitsAux : ℕ → ℕ → List Char
  | 0, _ => []
  | fuel + 1, n =>
    if n < 10 then [Char.ofNat (48 + n)]
    else natDigitsAux fuel (n / 10) ++ [Char.ofNat (48 + n % 10)]

def natToCh (n : ℕ) : List Char := natDigitsAux (n + 1) n

/-- `f"{n:02d}"`. -/
def pad2Ch (n : ℕ) : List Char := if n < 10 then '0' :: natToCh n else natToCh n

/-- `f"{n:04d}"` (what `strftime("%Y")` produces for years up to 9999). -/
def pad4Ch (n : ℕ) : List Char :=
  List.replicate (4 - (natToCh n).length) '0' ++ natToCh n

/-- `date_obj.strftime("%Y-%m-%d")`. -/
def formatDate (dte : ℕ × ℕ × ℕ) : String :=
  String.mk (pad4Ch dte.1 ++ '-' :: pad2Ch dte.2.1 ++ '-' :: pad2Ch dte.2.2)

/-- `f"report_{year}_{month:02d}.csv"` (source line 249). -/
def report_filename (year month : ℕ) : String :=
  String.mk (('r' :: 'e' :: 'p' :: 'o' :: 'r' :: 't' :: '_' :: natToCh year) ++
    '_' :: pad2Ch month ++ ['.', 'c', 's', 'v'])

/-- `export_monthly_report` (source lines 245-259): the report file name
and contents (header plus one row per record, `csv.DictWriter` with the
same quoting rules as the ledger writer). -/
def export_monthly_report (expenses : List Expense) (year month : ℕ) : String × List String :=
  (report_filename year month, headerLine :: expenses.map (fun e => writeRowStr (toRow e)))

/-! ## Aggregation (`monthly_report`, source lines 211-235)

The accumulation loop is parametric in the addition used and in the
amount read from a record, so that the code's binary64 accumulation
(`fadd`, `famt`) and the spec's exact decimal accumulation (`qadd`,
`qamt`) share one definition of the grouping structure. -/

/-- `category_totals[cat] = category_totals.get(cat, 0.0) + amount`: a
Python dict preserves insertion order; a new key is appended at the end. -/
def updateCat (add : ℚ → ℚ → ℚ) : List (String × ℚ) → String → ℚ → List (String × ℚ)
  | [], c, a => [(c, add 0 a)]
  | (c', v) :: t, c, a =>
    if c' = c then (c', add v a) :: t else (c', v) :: updateCat add t c a

/-- One iteration of the `monthly_report` loop body. -/
def stepSum (add : ℚ → ℚ → ℚ) (amt : Expense → ℚ) (s : List (String × ℚ) × ℚ)
    (e : Expense) : List (String × ℚ) × ℚ :=
  (updateCat add s.1 e.category (amt e), add s.2 (amt e))

def summarizeWith (add : ℚ → ℚ → ℚ) (amt : Expense → ℚ) (rs : List Expense) :
    List (String × ℚ) × ℚ :=
  rs.foldl (stepSum add amt) ([], 0)

/-- `float(exp["amount"])` with `except ValueError: amount = 0.0`
(source lines 215-218): the binary64 value of the stored amount. -/
def famt (e : Expense) : ℚ :=
  match parseDecimal e.amount with
  | some q => roundB64 q
  | none => 0

/-- The aggregation loop of `monthly_report` (source lines 211-222):
per-category totals in key-insertion order, plus the grand total, with
Python `float` (binary64) accumulation. -/
def summarize (rs : List Expense) : List (String × ℚ) × ℚ := summarizeWith fadd famt rs

/-- Modelled from the spec: the amount as an exact decimal, for the
decimal-safe accumulation the spec prescribes (no binary64 rounding). -/
def qamt (e : Expense) : ℚ := (parseDecimal e.amount).getD 0

/-- Modelled from the spec: `summarize` with exact (decimal-safe)
arithmetic instead of binary64 floats; only the arithmetic differs. -/
def summarizeExact (rs : List Expense) : List (String × ℚ) × ℚ := summarizeWith qadd qamt rs

/-- The record a stored row denotes (dict field access by header name). -/
def recOfRow (row : List String) : Expense :=
  ⟨row.getD 0 "", row.getD 1 "", row.getD 2 "", row.getD 3 ""⟩

/-- The complete monthly-aggregate pipeline of `monthly_report`: filter
the ledger by month, then aggregate. -/
def monthly_report_totals (fs : FS) (year month : ℕ) : List (String × ℚ) × ℚ :=
  summarize ((get_monthly_expenses fs year month).map recOfRow)

/-! ## Spec-side vocabulary for the claims -/

/-- Keys in order of first occurrence. -/
def firstOccur (l : List String) : List String :=
  l.foldl (fun acc c => if c ∈ acc then acc else acc ++ [c]) []

/-- The claim's filter predicate: the row's date parses as `YYYY-MM-DD`
and falls in the given calendar year and month. -/
def monthMatches (year month : ℕ) (row : List String) : Bool :=
  match parse_date (rowDate row) with
  | some d => d.1 = year && d.2.1 = month
  | none => false

/-- Look a category up in the totals list. -/
def lookupCat : List (String × ℚ) → String → Option ℚ
  | [], _ => none
  | (c', v) :: t, c => if c' = c then some v else lookupCat t c

/-- The total recorded for a category (`0` when absent). -/
def valAt (l : List (String × ℚ)) (c : String) : ℚ := (lookupCat l c).getD 0

/-- The (exact) sum of all recorded per-category totals. -/
def sumVals (l : List (String × ℚ)) : ℚ := (l.map Prod.snd).sum

/-! ## Validation and append (`add_expense`, source lines 94-117)

Modelled from the spec: the source has no `append(record)` API with a
`ValidationError` value — validation happens in the prompt loops
`get_valid_date` (lines 50-62), `get_non_empty_input` (lines 81-89) and
`get_valid_float` (lines 65-78), which re-prompt instead of returning.
Each check below is translated from the corresponding loop body; one
rejected input attempt is modelled as the error return, and the write
(which in the source only happens after every loop has accepted) does not
occur. -/

inductive ValidationError where
  | badDate
  | emptyCategory
  | nonNumericAmount
  | nonPositiveAmount
deriving DecidableEq

/-- The validation checks of `add_expense`'s input loops, in prompt
order.  An empty date input is valid (it means "today", line 56-58);
the amount check `amount <= 0` is on the parsed `float` value. -/
def validate_record (d c a : String) : Option ValidationError :=
  if pyStrip d ≠ "" ∧ parse_date (pyStrip d) = none then some .badDate
  else if pyStrip c = "" then some .emptyCategory
  else
    match parseDecimal a with
    | none => some .nonNumericAmount
    | some q => if roundB64 q ≤ 0 then some .nonPositiveAmount else none

/-- `f"{amount:.2f}"` for the accepted (positive) float value. -/
def formatFixed2 (q : ℚ) : String :=
  let n := rnTieInt (q.num * 100) q.den
  String.mk (natToCh (n.natAbs / 100) ++ '.' :: pad2Ch (n.natAbs % 100))

/-- Modelled from the spec: `append(record)` — `add_expense` as a single
validate-then-write step on one input attempt.  `today` is the date used
when the date input is empty. -/
def add_expense (fs : FS) (today : ℕ × ℕ × ℕ) (d c desc a : String) :
    FS × Option ValidationError :=
  match validate_record d c a with
  | some e => (fs, some e)
  | none =>
    let dte := if pyStrip d = "" then today else (parse_date (pyStrip d)).getD today
    let amt := roundB64 ((parseDecimal a).getD 0)
    (some ((fs.getD []) ++
      [writeRowStr [formatDate dte, pyStrip c, pyStrip desc, formatFixed2 amt]]), none)

/-! ## Correctness of the binary64 rounding model -/

theorem qadd_eq_add (a b : ℚ) : qadd a b = a + b := by
  rw [qadd, Rat.add_def, Rat.normalize_eq_mkRat]

theorem normNat_zero (n d : ℕ) (k : ℤ) : normNat 0 n d k = (n, d, k) := rfl

theorem normNat_succ (f n d : ℕ) (k : ℤ) :
    normNat (f + 1) n d k =
      if n < 1048576 * d then normNat f (4294967296 * n) d (k + 32)
      else if n < 17592186044416 * d then normNat f (256 * n) d (k + 8)
      else if n < 4503599627370496 * d then normNat f (2 * n) d (k + 1)
      else if 38685626227668133590597632 * d ≤ n then normNat f n (4294967296 * d) (k - 32)
      else if 2305843009213693952 * d ≤ n then normNat f n (256 * d) (k - 8)
      else if 9007199254740992 * d ≤ n then normNat f n (2 * d) (k - 1)
      else (n, d, k) := rfl

theorem normNat_pos (f : ℕ) : ∀ n d : ℕ, ∀ k : ℤ, 0 < n → 0 < d →
    0 < (normNat f n d k).1 ∧ 0 < (normNat f n d k).2.1 := by
  induction f with
  | zero => intro n d k hn hd; exact ⟨hn, hd⟩
  | succ f ih =>
    intro n d k hn hd
    rw [normNat_succ]
    split
    · exact ih _ _ _ (by positivity) hd
    · split
      · exact ih _ _ _ (by positivity) hd
      · split
        · exact ih _ _ _ (by positivity) hd
        · split
          · exact ih _ _ _ hn (by positivity)
          · split
            · exact ih _ _ _ hn (by positivity)
            · split
              · exact ih _ _ _ hn (by positivity)
              · exact ⟨hn, hd⟩

theorem normNat_up (f : ℕ) : ∀ n d : ℕ, ∀ k : ℤ, 0 < n → 0 < d →
    n < 9007199254740992 * d → 4503599627370496 * d ≤ n * 2 ^ f →
    4503599627370496 * (normNat f n d k).2.1 ≤ (normNat f n d k).1 ∧
      (normNat f n d k).1 < 9007199254740992 * (normNat f n d k).2.1 := by
  induction f with
  | zero =>
    intro n d k _ _ hub hfuel
    rw [normNat_zero]
    exact ⟨by simpa using hfuel, hub⟩
  | succ f ih =>
    intro n d k hn hd hub hfuel
    rw [normNat_succ]
    by_cases h1 : n < 1048576 * d
    · rw [if_pos h1]
      refine ih _ _ _ (by positivity) hd (by nlinarith) ?_
      calc 4503599627370496 * d ≤ n * 2 ^ (f + 1) := hfuel
        _ ≤ n * 2 ^ (32 + f) := by
            exact Nat.mul_le_mul_left n (Nat.pow_le_pow_right (by norm_num) (by omega))
        _ = 4294967296 * n * 2 ^ f := by ring
    · rw [if_neg h1]
      by_cases h2 : n < 17592186044416 * d
      · rw [if_pos h2]
        refine ih _ _ _ (by positivity) hd (by nlinarith) ?_
        calc 4503599627370496 * d ≤ n * 2 ^ (f + 1) := hfuel
          _ ≤ n * 2 ^ (8 + f) := by
              exact Nat.mul_le_mul_left n (Nat.pow_le_pow_right (by norm_num) (by omega))
          _ = 256 * n * 2 ^ f := by ring
      · rw [if_neg h2]
        by_cases h3 : n < 4503599627370496 * d
        · rw [if_pos h3]
          refine ih _ _ _ (by positivity) hd (by nlinarith) ?_
          calc 4503599627370496 * d ≤ n * 2 ^ (f + 1) := hfuel
            _ = 2 * n * 2 ^ f := by ring
        · rw [if_neg h3]
          rw [if_neg (by omega), if_neg (by omega), if_neg (by omega)]
          exact ⟨show 4503599627370496 * d ≤ n by omega,
            show n < 9007199254740992 * d from hub⟩

theorem normNat_down (f : ℕ) : ∀ n d : ℕ, ∀ k : ℤ, 0 < d →
    4503599627370496 * d ≤ n → n < 9007199254740992 * d * 2 ^ f →
    4503599627370496 * (normNat f n d k).2.1 ≤ (normNat f n d k).1 ∧
      (normNat f n d k).1 < 9007199254740992 * (normNat f n d k).2.1 := by
  induction f with
  | zero =>
    intro n d k _ hlb hfuel
    rw [normNat_zero]
    exact ⟨hlb, by simpa using hfuel⟩
  | succ f ih =>
    intro n d k hd hlb hfuel
    rw [normNat_succ]
    rw [if_neg (by nlinarith), if_neg (by nlinarith), if_neg (by omega)]
    by_cases h4 : 38685626227668133590597632 * d ≤ n
    · rw [if_pos h4]
      refine ih _ _ _ (by positivity) (by nlinarith) ?_
      calc n < 9007199254740992 * d * 2 ^ (f + 1) := hfuel
        _ ≤ 9007199254740992 * d * 2 ^ (32 + f) := by
            exact Nat.mul_le_mul_left _ (Nat.pow_le_pow_right (by norm_num) (by omega))
        _ = 9007199254740992 * (4294967296 * d) * 2 ^ f := by ring
    · rw [if_neg h4]
      by_cases h5 : 2305843009213693952 * d ≤ n
      · rw [if_pos h5]
        refine ih _ _ _ (by positivity) (by nlinarith) ?_
        calc n < 9007199254740992 * d * 2 ^ (f + 1) := hfuel
          _ ≤ 9007199254740992 * d * 2 ^ (8 + f) := by
              exact Nat.mul_le_mul_left _ (Nat.pow_le_pow_right (by norm_num) (by omega))
          _ = 9007199254740992 * (256 * d) * 2 ^ f := by ring
      · rw [if_neg h5]
        by_cases h6 : 9007199254740992 * d ≤ n
        · rw [if_pos h6]
          refine ih _ _ _ (by positivity) (by omega) ?_
          calc n < 9007199254740992 * d * 2 ^ (f + 1) := hfuel
            _ = 9007199254740992 * (2 * d) * 2 ^ f := by ring
        · rw [if_neg h6]
          exact ⟨show 4503599627370496 * d ≤ n from hlb,
            show n < 9007199254740992 * d by omega⟩

theorem inv_step_up (m : ℕ) (c : ℤ) (hm : ((m : ℕ) : ℚ) = (2 : ℚ) ^ c)
    (n d : ℕ) (k : ℤ) :
    ((m * n : ℕ) : ℚ) / d * (2 : ℚ) ^ (-(k + c)) = (n : ℚ) / d * (2 : ℚ) ^ (-k) := by
  have hz : (2 : ℚ) ^ (-(k + c)) = (2 : ℚ) ^ (-k) * ((2 : ℚ) ^ c)⁻¹ := by
    rw [neg_add, zpow_add₀ (two_ne_zero), zpow_neg, zpow_neg]
  rw [hz]
  push_cast
  rw [hm]
  have h2 : (2 : ℚ) ^ c ≠ 0 := zpow_ne_zero c two_ne_zero
  rcases eq_or_ne (d : ℚ) 0 with hd | hd
  · simp [hd]
  · field_simp
    ring

theorem inv_step_down (m : ℕ) (c : ℤ) (hm : ((m : ℕ) : ℚ) = (2 : ℚ) ^ c)
    (n d : ℕ) (k : ℤ) :
    (n : ℚ) / ((m * d : ℕ) : ℚ) * (2 : ℚ) ^ (-(k - c)) = (n : ℚ) / d * (2 : ℚ) ^ (-k) := by
  have hz : (2 : ℚ) ^ (-(k - c)) = (2 : ℚ) ^ (-k) * (2 : ℚ) ^ c := by
    rw [neg_sub, sub_eq_add_neg, add_comm, zpow_add₀ (two_ne_zero)]
  rw [hz]
  push_cast
  rw [hm]
  have h2 : (2 : ℚ) ^ c ≠ 0 := zpow_ne_zero c two_ne_zero
  rcases eq_or_ne (d : ℚ) 0 with hd | hd
  · simp [hd]
  · field_simp
    ring

/-- The loop never changes the represented value `n / d * 2^(-k)`. -/
theorem normNat_inv (f : ℕ) : ∀ n d : ℕ, ∀ k : ℤ,
    ((normNat f n d k).1 : ℚ) / ((normNat f n d k).2.1 : ℚ) *
      (2 : ℚ) ^ (-(normNat f n d k).2.2) = (n : ℚ) / d * (2 : ℚ) ^ (-k) := by
  induction f with
  | zero => intro n d k; rfl
  | succ f ih =>
    intro n d k
    rw [normNat_succ]
    split
    · rw [ih]
      exact inv_step_up 4294967296 32 (by norm_num) n d k
    · split
      · rw [ih]
        exact inv_step_up 256 8 (by norm_num) n d k
      · split
        · rw [ih]
          exact inv_step_up 2 1 (by norm_num) n d k
        · split
          · rw [ih]
            exact inv_step_down 4294967296 32 (by norm_num) n d k
          · split
            · rw [ih]
              exact inv_step_down 256 8 (by norm_num) n d k
            · split
              · rw [ih]
                exact inv_step_down 2 1 (by norm_num) n d k
              · rfl

/-- With the fuel `fuelFor` provides, the loop always lands in the binade
`[2^52 * d, 2^53 * d)`. -/
theorem normNat_range (n d : ℕ) (hn : 0 < n) (hd : 0 < d) :
    4503599627370496 * (normNat (53 + n + d) n d 0).2.1 ≤ (normNat (53 + n + d) n d 0).1 ∧
      (normNat (53 + n + d) n d 0).1 < 9007199254740992 * (normNat (53 + n + d) n d 0).2.1 := by
  by_cases hcase : n < 9007199254740992 * d
  · refine normNat_up _ n d 0 hn hd hcase ?_
    calc 4503599627370496 * d
        ≤ 4503599627370496 * 2 ^ d := by
          exact Nat.mul_le_mul_left _ (Nat.le_of_lt (Nat.lt_two_pow d))
      _ ≤ 2 ^ 52 * 2 ^ d := by norm_num
      _ = 2 ^ (52 + d) := by rw [Nat.pow_add]
      _ ≤ 2 ^ (53 + n + d) := Nat.pow_le_pow_right (by norm_num) (by omega)
      _ = 1 * 2 ^ (53 + n + d) := by ring
      _ ≤ n * 2 ^ (53 + n + d) := Nat.mul_le_mul_right _ hn
  · refine normNat_down _ n d 0 hd (by omega) ?_
    calc n < 2 ^ n := Nat.lt_two_pow n
      _ ≤ 2 ^ (53 + n + d) := Nat.pow_le_pow_right (by norm_num) (by omega)
      _ = 1 * 1 * 2 ^ (53 + n + d) := by ring
      _ ≤ 9007199254740992 * d * 2 ^ (53 + n + d) :=
          Nat.mul_le_mul_right _ (Nat.mul_le_mul (by norm_num) hd)

theorem rnTieNat_of_dvd (n d : ℕ) (hd : 0 < d) (h : d ∣ n) : rnTieNat n d = n / d := by
  have hr : n % d = 0 := Nat.dvd_iff_mod_eq_zero.mp h
  rw [rnTieNat]
  simp only [hr]
  rw [if_pos (by omega)]

theorem zpow_mul_zpow_neg (k : ℤ) : (2 : ℚ) ^ k * (2 : ℚ) ^ (-k) = 1 := by
  rw [zpow_neg, mul_inv_cancel₀ (zpow_ne_zero k two_ne_zero)]

/-- Everything later proofs need about one run of the normalization loop:
positivity, the binade range, the represented value, and the shape of the
result of `roundPos`. -/
theorem roundPos_setup (q : ℚ) (hq : 0 < q) :
    ∃ n' d' : ℕ, ∃ k' : ℤ,
      0 < n' ∧ 0 < d' ∧
      4503599627370496 * d' ≤ n' ∧ n' < 9007199254740992 * d' ∧
      (n' : ℚ) / d' = q * (2 : ℚ) ^ k' ∧
      roundPos q = (rnTieNat n' d' : ℚ) * (2 : ℚ) ^ (-k') := by
  have hn : 0 < q.num.natAbs := by
    have := Rat.num_pos.mpr hq
    omega
  have hd : 0 < q.den := q.den_pos
  have hfuel : fuelFor q = 53 + q.num.natAbs + q.den := rfl
  refine ⟨(normNat (fuelFor q) q.num.natAbs q.den 0).1,
    (normNat (fuelFor q) q.num.natAbs q.den 0).2.1,
    (normNat (fuelFor q) q.num.natAbs q.den 0).2.2,
    (normNat_pos _ _ _ _ hn hd).1, (normNat_pos _ _ _ _ hn hd).2, ?_, ?_, ?_, ?_⟩
  · rw [hfuel]; exact (normNat_range _ _ hn hd).1
  · rw [hfuel]; exact (normNat_range _ _ hn hd).2
  · have hinv := normNat_inv (fuelFor q) q.num.natAbs q.den 0
    have hq' : (q.num.natAbs : ℚ) / q.den * (2 : ℚ) ^ (-(0 : ℤ)) = q := by
      have hnum : ((q.num.natAbs : ℕ) : ℚ) = (q.num : ℚ) := by
        rw [Int.cast_natAbs]
        exact_mod_cast abs_of_nonneg (le_of_lt (Rat.num_pos.mpr hq))
      rw [hnum]
      simp [Rat.num_div_den]
    rw [hq'] at hinv
    calc ((normNat (fuelFor q) q.num.natAbs q.den 0).1 : ℚ) /
          ((normNat (fuelFor q) q.num.natAbs q.den 0).2.1 : ℚ)
        = ((normNat (fuelFor q) q.num.natAbs q.den 0).1 : ℚ) /
          ((normNat (fuelFor q) q.num.natAbs q.den 0).2.1 : ℚ) *
          ((2 : ℚ) ^ (-(normNat (fuelFor q) q.num.natAbs q.den 0).2.2) *
            (2 : ℚ) ^ ((normNat (fuelFor q) q.num.natAbs q.den 0).2.2)) := by
          rw [mul_comm ((2:ℚ) ^ _) ((2:ℚ) ^ _), zpow_mul_zpow_neg]; ring
      _ = q * (2 : ℚ) ^ ((normNat (fuelFor q) q.num.natAbs q.den 0).2.2) := by
          rw [← mul_assoc, hinv]
  · rcases hk : (normNat (fuelFor q) q.num.natAbs q.den 0).2.2 with t | t
    · show (match (normNat (fuelFor q) q.num.natAbs q.den 0).2.2 with
        | Int.ofNat t => mkRat (rnTieNat (normNat (fuelFor q) q.num.natAbs q.den 0).1
            (normNat (fuelFor q) q.num.natAbs q.den 0).2.1) (2 ^ t)
        | Int.negSucc t => ((rnTieNat (normNat (fuelFor q) q.num.natAbs q.den 0).1
            (normNat (fuelFor q) q.num.natAbs q.den 0).2.1 * 2 ^ (t + 1) : ℕ) : ℚ)) = _
      rw [hk]
      show mkRat _ (2 ^ t) = _
      rw [Rat.mkRat_eq_div]
      rw [div_eq_mul_inv]
      push_cast
      rw [Int.ofNat_eq_natCast, zpow_neg, zpow_natCast]
    · show (match (normNat (fuelFor q) q.num.natAbs q.den 0).2.2 with
        | Int.ofNat t => mkRat (rnTieNat (normNat (fuelFor q) q.num.natAbs q.den 0).1
            (normNat (fuelFor q) q.num.natAbs q.den 0).2.1) (2 ^ t)
        | Int.negSucc t => ((rnTieNat (normNat (fuelFor q) q.num.natAbs q.den 0).1
            (normNat (fuelFor q) q.num.natAbs q.den 0).2.1 * 2 ^ (t + 1) : ℕ) : ℚ)) = _
      rw [hk]
      show ((_ * 2 ^ (t + 1) : ℕ) : ℚ) = _
      rw [Int.neg_negSucc, zpow_natCast]
      push_cast
      rw [pow_succ]

/-- Binary64 rounding is exact on representable values (positive case). -/
theorem roundPos_fix (q : ℚ) (hq : 0 < q) (hr : B64Repr q) : roundPos q = q := by
  obtain ⟨m, j, hqe, hm⟩ := hr
  obtain ⟨n', d', k', hn', hd', hlo, hhi, hval, hshape⟩ := roundPos_setup q hq
  have h2j : (0 : ℚ) < (2 : ℚ) ^ (-j) := zpow_pos (by norm_num) _
  have hmpos : (0 : ℚ) < (m : ℚ) := by nlinarith [hqe ▸ hq]
  have hmZ : 0 < m := by exact_mod_cast hmpos
  have hmle : (m : ℚ) ≤ 9007199254740992 := by
    have : m ≤ (9007199254740992 : ℤ) := by
      have := hm
      omega
    exact_mod_cast this
  have hdQ : (0 : ℚ) < (d' : ℚ) := by exact_mod_cast hd'
  have hx : (n' : ℚ) / d' = (m : ℚ) * (2 : ℚ) ^ (k' - j) := by
    rw [hval, hqe, sub_eq_add_neg, zpow_add₀ (two_ne_zero)]
    ring
  have hxlo : (4503599627370496 : ℚ) ≤ (n' : ℚ) / d' := by
    rw [le_div_iff₀ hdQ]
    exact_mod_cast hlo
  have hxhi : (n' : ℚ) / d' < 9007199254740992 := by
    rw [div_lt_iff₀ hdQ]
    exact_mod_cast hhi
  have hdvd : ∃ N : ℕ, n' = N * d' ∧ (N : ℚ) = (n' : ℚ) / d' := by
    rcases hkj : k' - j with t | t
    · rw [hkj, Int.ofNat_eq_natCast, zpow_natCast] at hx
      have hcast : ((n' : ℤ) : ℚ) = ((m * 2 ^ t * d' : ℤ) : ℚ) := by
        push_cast
        rw [← hx]
        field_simp
      have hZ : (n' : ℤ) = m * 2 ^ t * d' := by exact_mod_cast hcast
      have hNnn : 0 ≤ m * 2 ^ t := by positivity
      refine ⟨(m * 2 ^ t).toNat, ?_, ?_⟩
      · have hz : ((m * 2 ^ t).toNat : ℤ) = m * 2 ^ t := Int.toNat_of_nonneg hNnn
        have hcast2 : ((n' : ℕ) : ℤ) = (((m * 2 ^ t).toNat * d' : ℕ) : ℤ) := by
          push_cast
          rw [hz]
          exact_mod_cast hZ
        exact_mod_cast hcast2
      · rw [eq_div_iff (ne_of_gt hdQ)]
        have h1 : (((m * 2 ^ t).toNat : ℕ) : ℚ) = ((m * 2 ^ t : ℤ) : ℚ) := by
          exact_mod_cast congrArg (fun z : ℤ => (z : ℚ)) (Int.toNat_of_nonneg hNnn)
        rw [h1]
        push_cast
        rw [← hx]
        field_simp
    · rw [hkj, zpow_negSucc] at hx
      have h2t : (0 : ℚ) < (2 : ℚ) ^ (t + 1) := by positivity
      have hmx : (m : ℚ) = (n' : ℚ) / d' * 2 ^ (t + 1) := by
        rw [hx]
        field_simp
      have hge : (4503599627370496 : ℚ) * 2 ^ (t + 1) ≤ (m : ℚ) := by
        rw [hmx]
        have := mul_le_mul_of_nonneg_right hxlo (le_of_lt h2t)
        linarith
      have ht0 : t = 0 := by
        by_contra ht
        have ht1 : 1 ≤ t := Nat.one_le_iff_ne_zero.mpr ht
        have : (4503599627370496 : ℚ) * 2 ^ (t + 1) ≥ 4503599627370496 * 2 ^ 2 := by
          have : (2 : ℚ) ^ 2 ≤ 2 ^ (t + 1) :=
            pow_le_pow_right₀ (by norm_num) (by omega)
          nlinarith
        nlinarith
      subst ht0
      have hmeq : (m : ℚ) = 9007199254740992 := by
        norm_num at hge
        linarith
      have hxeq : (n' : ℚ) / d' = 4503599627370496 := by
        rw [hx, hmeq]
        norm_num
      have hcast : ((n' : ℤ) : ℚ) = ((4503599627370496 * d' : ℤ) : ℚ) := by
        push_cast
        rw [← hxeq]
        field_simp
      have hZ : (n' : ℤ) = 4503599627370496 * d' := by exact_mod_cast hcast
      refine ⟨4503599627370496, by exact_mod_cast hZ, by rw [hxeq]; norm_num⟩
  obtain ⟨N, hNeq, hNQ⟩ := hdvd
  have htie : rnTieNat n' d' = N := by
    rw [rnTieNat_of_dvd n' d' hd' ⟨N, hNeq.trans (mul_comm N d')⟩, hNeq,
      Nat.mul_div_cancel N hd']
  rw [hshape, htie, hNQ, hval, mul_assoc, zpow_mul_zpow_neg, mul_one]

theorem rnTieNat_bounds (n d : ℕ) (_hd : 0 < d) :
    n / d ≤ rnTieNat n d ∧ rnTieNat n d ≤ n / d + 1 := by
  rw [rnTieNat]
  split
  · omega
  · split
    · omega
    · split <;> omega

/-- `roundPos` lands on a positive representable value. -/
theorem roundPos_mem (q : ℚ) (hq : 0 < q) : B64Repr (roundPos q) ∧ 0 < roundPos q := by
  obtain ⟨n', d', k', hn', hd', hlo, hhi, hval, hshape⟩ := roundPos_setup q hq
  have hfl_lo : 4503599627370496 ≤ n' / d' := (Nat.le_div_iff_mul_le hd').mpr hlo
  have hfl_hi : n' / d' < 9007199254740992 := (Nat.div_lt_iff_lt_mul hd').mpr hhi
  have hb := rnTieNat_bounds n' d' hd'
  have hNlo : 4503599627370496 ≤ rnTieNat n' d' := le_trans hfl_lo hb.1
  have hNhi : rnTieNat n' d' ≤ 9007199254740992 := by omega
  constructor
  · exact ⟨(rnTieNat n' d' : ℤ), k', by rw [hshape]; push_cast; ring, by
      simpa using hNhi⟩
  · rw [hshape]
    have h1 : (0 : ℚ) < (rnTieNat n' d' : ℚ) := by
      exact_mod_cast Nat.lt_of_lt_of_le (by norm_num) hNlo
    positivity

theorem B64Repr_zero : B64Repr 0 := ⟨0, 0, by norm_num, by norm_num⟩

theorem B64Repr_neg (q : ℚ) (h : B64Repr q) : B64Repr (-q) := by
  obtain ⟨m, j, he, hb⟩ := h
  exact ⟨-m, j, by rw [he]; push_cast; ring, by simpa using hb⟩

/-- Binary64 rounding is exact on representable values. -/
theorem roundB64_fix (q : ℚ) (h : B64Repr q) : roundB64 q = q := by
  rcases lt_trichotomy q 0 with hlt | heq | hgt
  · rw [roundB64, if_neg (by linarith), if_pos hlt,
      roundPos_fix (-q) (by linarith) (B64Repr_neg q h)]
    ring
  · rw [roundB64, heq]
    norm_num
  · rw [roundB64, if_pos hgt]
    exact roundPos_fix q hgt h

/-- Every output of binary64 rounding is representable. -/
theorem roundB64_repr (q : ℚ) : B64Repr (roundB64 q) := by
  rcases lt_trichotomy q 0 with hlt | heq | hgt
  · rw [roundB64, if_neg (by linarith), if_pos hlt]
    exact B64Repr_neg _ (roundPos_mem (-q) (by linarith)).1
  · rw [roundB64, heq]
    simpa using B64Repr_zero
  · rw [roundB64, if_pos hgt]
    exact (roundPos_mem q hgt).1

theorem roundB64_pos (q : ℚ) (hq : 0 < q) : 0 < roundB64 q := by
  rw [roundB64, if_pos hq]
  exact (roundPos_mem q hq).2

theorem roundB64_nonpos (q : ℚ) (hq : q ≤ 0) : roundB64 q ≤ 0 := by
  rcases lt_or_eq_of_le hq with hlt | heq
  · rw [roundB64, if_neg (by linarith), if_pos hlt]
    have := (roundPos_mem (-q) (by linarith)).2
    linarith
  · rw [roundB64, heq]
    norm_num

/-- Adding float zero to a representable float leaves it unchanged. -/
theorem fadd_zero_of_repr (g : ℚ) (h : B64Repr g) : fadd g 0 = g := by
  rw [fadd, qadd_eq_add, add_zero, roundB64_fix g h]

theorem fadd_repr (a b : ℚ) : B64Repr (fadd a b) := roundB64_repr _

theorem famt_repr (e : Expense) : B64Repr (famt e) := by
  rw [famt]
  rcases parseDecimal e.amount with _ | q
  · exact B64Repr_zero
  · exact roundB64_repr q

/-! ## The aggregation loop: grouping structure -/

theorem lookupCat_update_self (add : ℚ → ℚ → ℚ) (l : List (String × ℚ)) (c : String) (a : ℚ) :
    lookupCat (updateCat add l c a) c = some (add (valAt l c) a) := by
  induction l with
  | nil => simp [updateCat, lookupCat, valAt]
  | cons p t ih =>
    obtain ⟨c', v⟩ := p
    by_cases h : c' = c
    · subst h
      simp [updateCat, lookupCat, valAt]
    · rw [updateCat, if_neg h, lookupCat, if_neg h, ih]
      have hv : valAt ((c', v) :: t) c = valAt t c := by
        rw [valAt, lookupCat, if_neg h, valAt]
      rw [hv]

theorem lookupCat_update_other (add : ℚ → ℚ → ℚ) (l : List (String × ℚ)) (c c' : String)
    (a : ℚ) (h : c' ≠ c) : lookupCat (updateCat add l c a) c' = lookupCat l c' := by
  have hcc : ¬(c = c') := fun hx => h hx.symm
  induction l with
  | nil => rw [updateCat, lookupCat, lookupCat, if_neg hcc, lookupCat]
  | cons p t ih =>
    obtain ⟨c'', v⟩ := p
    by_cases h2 : c'' = c
    · subst h2
      rw [updateCat, if_pos rfl, lookupCat, lookupCat, if_neg hcc, if_neg hcc]
    · rw [updateCat, if_neg h2, lookupCat, lookupCat]
      by_cases h3 : c'' = c'
      · rw [if_pos h3, if_pos h3]
      · rw [if_neg h3, if_neg h3, ih]

theorem valAt_update (add : ℚ → ℚ → ℚ) (l : List (String × ℚ)) (c c' : String) (a : ℚ) :
    valAt (updateCat add l c a) c' =
      if c' = c then add (valAt l c) a else valAt l c' := by
  by_cases h : c' = c
  · subst h
    rw [if_pos rfl, valAt, lookupCat_update_self]
    rfl
  · rw [if_neg h, valAt, lookupCat_update_other add l c c' a h]
    rfl

theorem keys_update (add : ℚ → ℚ → ℚ) (l : List (String × ℚ)) (c : String) (a : ℚ) :
    (updateCat add l c a).map Prod.fst =
      if c ∈ l.map Prod.fst then l.map Prod.fst else l.map Prod.fst ++ [c] := by
  induction l with
  | nil => simp [updateCat]
  | cons p t ih =>
    obtain ⟨c', v⟩ := p
    by_cases h : c' = c
    · subst h
      simp [updateCat]
    · have hcc : ¬(c = c') := fun hx => h hx.symm
      rw [updateCat, if_neg h]
      simp only [List.map_cons]
      rw [ih]
      by_cases h2 : c ∈ t.map Prod.fst
      · rw [if_pos h2, if_pos (List.mem_cons.mpr (Or.inr h2))]
      · have hnotin : c ∉ c' :: t.map Prod.fst := by
          rw [List.mem_cons]
          rintro (h1 | h1)
          · exact hcc h1
          · exact h2 h1
        rw [if_neg h2, if_neg hnotin]
        simp

theorem lookupCat_eq_none (l : List (String × ℚ)) (c : String) :
    lookupCat l c = none ↔ c ∉ l.map Prod.fst := by
  induction l with
  | nil => simp [lookupCat]
  | cons p t ih =>
    obtain ⟨c', v⟩ := p
    by_cases h : c' = c
    · subst h
      simp [lookupCat]
    · rw [lookupCat, if_neg h]
      simp only [List.map_cons, List.mem_cons]
      rw [ih]
      constructor
      · intro hn hor
        rcases hor with h1 | h2
        · exact h h1.symm
        · exact hn h2
      · intro hn
        exact fun hx => hn (Or.inr hx)

/-- The grand total is the left fold of the additions over all amounts,
whatever category structure accumulates alongside. -/
theorem foldl_step_snd (add : ℚ → ℚ → ℚ) (amt : Expense → ℚ) :
    ∀ rs : List Expense, ∀ ct : List (String × ℚ), ∀ g : ℚ,
      (List.foldl (stepSum add amt) (ct, g) rs).2 =
        List.foldl (fun x e => add x (amt e)) g rs := by
  intro rs
  induction rs with
  | nil => intro ct g; rfl
  | cons e rs ih =>
    intro ct g
    rw [List.foldl_cons, List.foldl_cons]
    exact ih _ _

/-- The key list evolves exactly by first-occurrence insertion. -/
theorem foldl_step_keys (add : ℚ → ℚ → ℚ) (amt : Expense → ℚ) :
    ∀ rs : List Expense, ∀ ct : List (String × ℚ), ∀ g : ℚ,
      (List.foldl (stepSum add amt) (ct, g) rs).1.map Prod.fst =
        List.foldl (fun acc e => if e.category ∈ acc then acc else acc ++ [e.category])
          (ct.map Prod.fst) rs := by
  intro rs
  induction rs with
  | nil => intro ct g; rfl
  | cons e rs ih =>
    intro ct g
    rw [List.foldl_cons, List.foldl_cons]
    rw [ih _ _]
    congr 1
    exact keys_update add ct e.category (amt e)

/-- The value stored for one category is the fold of the additions over
that category's records only. -/
theorem foldl_step_lookup (add : ℚ → ℚ → ℚ) (amt : Expense → ℚ) :
    ∀ rs : List Expense, ∀ ct : List (String × ℚ), ∀ g : ℚ, ∀ c : String,
      lookupCat (List.foldl (stepSum add amt) (ct, g) rs).1 c =
        match lookupCat ct c with
        | some v => some (List.foldl (fun x e => add x (amt e)) v
            (rs.filter (fun e => e.category = c)))
        | none =>
          if rs.filter (fun e => e.category = c) = [] then none
          else some (List.foldl (fun x e => add x (amt e)) 0
            (rs.filter (fun e => e.category = c))) := by
  intro rs
  induction rs with
  | nil =>
    intro ct g c
    rw [List.foldl_nil]
    rcases h : lookupCat ct c with _ | v
    · simp [h]
    · simp [h]
  | cons e rs ih =>
    intro ct g c
    rw [List.foldl_cons]
    by_cases he : e.category = c
    · have hfil : (e :: rs).filter (fun e => e.category = c) =
          e :: rs.filter (fun e => e.category = c) := by
        simp [List.filter_cons, he]
      rw [ih _ _ c, hfil]
      have hup : lookupCat (stepSum add amt (ct, g) e).1 c =
          some (add (valAt ct c) (amt e)) := by
        show lookupCat (updateCat add ct e.category (amt e)) c = _
        rw [he]
        exact lookupCat_update_self add ct c (amt e)
      rw [hup]
      rcases h : lookupCat ct c with _ | v
      · have hv : valAt ct c = 0 := by rw [valAt, h]; rfl
        rw [hv]
        simp [List.foldl_cons]
      · have hv : valAt ct c = v := by rw [valAt, h]; rfl
        rw [hv]
        simp [List.foldl_cons]
    · have hfil : (e :: rs).filter (fun e => e.category = c) =
          rs.filter (fun e => e.category = c) := by
        simp [List.filter_cons, he]
      rw [ih _ _ c, hfil]
      have hup : lookupCat (stepSum add amt (ct, g) e).1 c = lookupCat ct c := by
        show lookupCat (updateCat add ct e.category (amt e)) c = _
        exact lookupCat_update_other add ct e.category c (amt e) (fun hx => he hx.symm)
      rw [hup]

/-- Exact addition: updating one category raises the total of all stored
values by exactly the added amount. -/
theorem sumVals_update_qadd (l : List (String × ℚ)) (c : String) (a : ℚ) :
    sumVals (updateCat qadd l c a) = sumVals l + a := by
  induction l with
  | nil => simp [updateCat, sumVals, qadd_eq_add]
  | cons p t ih =>
    obtain ⟨c', v⟩ := p
    by_cases h : c' = c
    · subst h
      simp [updateCat, sumVals, qadd_eq_add]
      ring
    · rw [updateCat, if_neg h]
      simp only [sumVals, List.map_cons, List.sum_cons] at ih ⊢
      rw [ih]
      ring

/-- Exact accumulation keeps the grand total equal to the sum of the
per-category totals. -/
theorem foldl_qadd_grand_eq_sum :
    ∀ rs : List Expense, ∀ ct : List (String × ℚ), ∀ g : ℚ, g = sumVals ct →
      (List.foldl (stepSum qadd qamt) (ct, g) rs).2 =
        sumVals (List.foldl (stepSum qadd qamt) (ct, g) rs).1 := by
  intro rs
  induction rs with
  | nil => intro ct g h; exact h
  | cons e rs ih =>
    intro ct g h
    rw [List.foldl_cons]
    refine ih _ _ ?_
    show qadd g (qamt e) = sumVals (updateCat qadd ct e.category (qamt e))
    rw [sumVals_update_qadd, qadd_eq_add, h]

theorem lookupCat_mem_pair (l : List (String × ℚ)) (c : String) (v : ℚ)
    (h : lookupCat l c = some v) : (c, v) ∈ l := by
  induction l with
  | nil => simp [lookupCat] at h
  | cons p t ih =>
    obtain ⟨c', v'⟩ := p
    by_cases h2 : c' = c
    · subst h2
      rw [lookupCat, if_pos rfl] at h
      obtain rfl : v' = v := by injection h
      exact List.mem_cons_self _ _
    · rw [lookupCat, if_neg h2] at h
      exact List.mem_cons_of_mem _ (ih h)

theorem valAt_repr (l : List (String × ℚ)) (c : String) (hl : ∀ p ∈ l, B64Repr p.2) :
    B64Repr (valAt l c) := by
  rcases h : lookupCat l c with _ | v
  · rw [valAt, h]
    exact B64Repr_zero
  · rw [valAt, h]
    exact hl (c, v) (lookupCat_mem_pair l c v h)

theorem updateCat_repr (l : List (String × ℚ)) (c : String) (a : ℚ)
    (hl : ∀ p ∈ l, B64Repr p.2) :
    ∀ p ∈ updateCat fadd l c a, B64Repr p.2 := by
  induction l with
  | nil =>
    intro p hp
    rw [updateCat, List.mem_singleton] at hp
    rw [hp]
    exact fadd_repr 0 a
  | cons q t ih =>
    obtain ⟨c', v⟩ := q
    intro p hp
    by_cases h : c' = c
    · subst h
      rw [updateCat, if_pos rfl, List.mem_cons] at hp
      rcases hp with hp | hp
      · rw [hp]; exact fadd_repr v a
      · exact hl p (List.mem_cons_of_mem _ hp)
    · rw [updateCat, if_neg h, List.mem_cons] at hp
      rcases hp with hp | hp
      · rw [hp]; exact hl (c', v) (List.mem_cons_self _ _)
      · exact ih (fun r hr => hl r (List.mem_cons_of_mem _ hr)) p hp

/-- Every value the float accumulation ever stores is representable. -/
theorem foldl_step_repr :
    ∀ rs : List Expense, ∀ ct : List (String × ℚ), ∀ g : ℚ,
      (∀ p ∈ ct, B64Repr p.2) → B64Repr g →
      (∀ p ∈ (List.foldl (stepSum fadd famt) (ct, g) rs).1, B64Repr p.2) ∧
        B64Repr (List.foldl (stepSum fadd famt) (ct, g) rs).2 := by
  intro rs
  induction rs with
  | nil => intro ct g hct hg; exact ⟨hct, hg⟩
  | cons e rs ih =>
    intro ct g hct hg
    rw [List.foldl_cons]
    exact ih _ _ (updateCat_repr ct e.category (famt e) hct) (fadd_repr g (famt e))

/-- States with pointwise-equal category totals stay pointwise equal (and
keep equal grand totals) under the same records. -/
theorem foldl_step_congr (add : ℚ → ℚ → ℚ) (amt : Expense → ℚ) :
    ∀ rs : List Expense, ∀ l₁ l₂ : List (String × ℚ), ∀ g : ℚ,
      (∀ c, valAt l₁ c = valAt l₂ c) →
      (List.foldl (stepSum add amt) (l₁, g) rs).2 =
        (List.foldl (stepSum add amt) (l₂, g) rs).2 ∧
      ∀ c, valAt (List.foldl (stepSum add amt) (l₁, g) rs).1 c =
        valAt (List.foldl (stepSum add amt) (l₂, g) rs).1 c := by
  intro rs
  induction rs with
  | nil => intro l₁ l₂ g h; exact ⟨rfl, h⟩
  | cons e rs ih =>
    intro l₁ l₂ g h
    rw [List.foldl_cons, List.foldl_cons]
    refine ih _ _ _ ?_
    intro c
    show valAt (updateCat add l₁ e.category (amt e)) c =
      valAt (updateCat add l₂ e.category (amt e)) c
    rw [valAt_update, valAt_update, h e.category]
    by_cases hc : c = e.category
    · rw [if_pos hc, if_pos hc]
    · rw [if_neg hc, if_neg hc, h c]

/-! ## CSV round trip: `parseRow` is a left inverse of `writeRow` -/

theorem strMk_data (s : String) : String.mk s.data = s := rfl

theorem parseRowAux_clean (f : List Char) (h : needsQuoteCh f = false) :
    ∀ buf rest, parseRowAux (f ++ rest) buf false = parseRowAux rest (buf ++ f) false := by
  induction f with
  | nil => intro buf rest; simp
  | cons c f ih =>
    intro buf rest
    simp only [needsQuoteCh, List.any_cons, Bool.or_eq_false_iff, decide_eq_false_iff_not] at h
    obtain ⟨⟨⟨⟨hc1, hc2⟩, _⟩, _⟩, hf⟩ := h
    have hstep : parseRowAux (c :: (f ++ rest)) buf false =
        parseRowAux (f ++ rest) (buf ++ [c]) false := by
      simp only [parseRowAux]
      rw [if_neg hc1, if_neg (by simp [hc2])]
    simp only [List.cons_append, hstep]
    rw [ih (by simp [needsQuoteCh] at hf ⊢; exact hf) (buf ++ [c]) rest]
    simp

theorem parseRowAux_true_step (c : Char) (r buf : List Char) (hc : c ≠ '"') :
    parseRowAux (c :: r) buf true = parseRowAux r (buf ++ [c]) true := by
  cases r with
  | nil => simp [parseRowAux, hc]
  | cons c2 r2 => simp [parseRowAux, hc]

theorem parseRowAux_quoted_comma (f : List Char) :
    ∀ buf r2, parseRowAux (escapeCh f ++ '"' :: ',' :: r2) buf true =
      (buf ++ f) :: parseRowAux r2 [] false := by
  induction f with
  | nil => intro buf r2; simp [parseRowAux]
  | cons c f ih =>
    intro buf r2
    by_cases hc : c = '"'
    · subst hc
      have h1 : escapeCh ('"' :: f) ++ '"' :: ',' :: r2 =
          '"' :: '"' :: (escapeCh f ++ '"' :: ',' :: r2) := by simp [escapeCh]
      rw [h1]
      have h2 : parseRowAux ('"' :: '"' :: (escapeCh f ++ '"' :: ',' :: r2)) buf true =
          parseRowAux (escapeCh f ++ '"' :: ',' :: r2) (buf ++ ['"']) true := by
        simp [parseRowAux]
      rw [h2, ih (buf ++ ['"']) r2]
      simp
    · have h1 : escapeCh (c :: f) ++ '"' :: ',' :: r2 =
          c :: (escapeCh f ++ '"' :: ',' :: r2) := by simp [escapeCh, hc]
      rw [h1, parseRowAux_true_step c _ buf hc, ih (buf ++ [c]) r2]
      simp

theorem parseRowAux_quoted_nil (f : List Char) :
    ∀ buf, parseRowAux (escapeCh f ++ ['"']) buf true = [buf ++ f] := by
  induction f with
  | nil => intro buf; simp [parseRowAux]
  | cons c f ih =>
    intro buf
    by_cases hc : c = '"'
    · subst hc
      have h1 : escapeCh ('"' :: f) ++ ['"'] =
          '"' :: '"' :: (escapeCh f ++ ['"']) := by simp [escapeCh]
      rw [h1]
      have h2 : parseRowAux ('"' :: '"' :: (escapeCh f ++ ['"'])) buf true =
          parseRowAux (escapeCh f ++ ['"']) (buf ++ ['"']) true := by
        simp [parseRowAux]
      rw [h2, ih (buf ++ ['"'])]
      simp
    · have h1 : escapeCh (c :: f) ++ ['"'] = c :: (escapeCh f ++ ['"']) := by
        simp [escapeCh, hc]
      rw [h1, parseRowAux_true_step c _ buf hc, ih (buf ++ [c])]
      simp

/-- Parsing one written field followed by a comma emits exactly that
field. -/
theorem parseRow_field_comma (f r2 : List Char) :
    parseRowAux (quoteFieldCh f ++ ',' :: r2) [] false = f :: parseRowAux r2 [] false := by
  by_cases hq : needsQuoteCh f = false
  · rw [quoteFieldCh, if_neg (by simp [hq])]
    rw [parseRowAux_clean f hq [] (',' :: r2)]
    simp [parseRowAux]
  · rw [quoteFieldCh, if_pos (by simpa using hq)]
    have h1 : ('"' :: (escapeCh f ++ ['"'])) ++ ',' :: r2 =
        '"' :: (escapeCh f ++ '"' :: ',' :: r2) := by simp
    rw [h1]
    have h2 : parseRowAux ('"' :: (escapeCh f ++ '"' :: ',' :: r2)) [] false =
        parseRowAux (escapeCh f ++ '"' :: ',' :: r2) [] true := by
      simp [parseRowAux]
    rw [h2, parseRowAux_quoted_comma f [] r2]
    simp

/-- Parsing one written field at the end of the line emits exactly that
field. -/
theorem parseRow_field_last (f : List Char) :
    parseRowAux (quoteFieldCh f) [] false = [f] := by
  by_cases hq : needsQuoteCh f = false
  · rw [quoteFieldCh, if_neg (by simp [hq])]
    have h1 : f = f ++ [] := by simp
    rw [h1, parseRowAux_clean f hq [] []]
    simp [parseRowAux]
  · rw [quoteFieldCh, if_pos (by simpa using hq)]
    have h1 : '"' :: (escapeCh f ++ ['"']) = '"' :: (escapeCh f ++ ['"']) := rfl
    have h2 : parseRowAux ('"' :: (escapeCh f ++ ['"'])) [] false =
        parseRowAux (escapeCh f ++ ['"']) [] true := by
      simp [parseRowAux]
    rw [h2, parseRowAux_quoted_nil f []]
    simp

theorem writeRowCh_ne_nil (fs : List (List Char)) (h : fs ≠ []) : writeRowCh fs ≠ [] := by
  match fs with
  | [f] =>
    by_cases hf : f = []
    · subst hf; simp [writeRowCh]
    · rw [writeRowCh, if_neg hf]
      by_cases hq : needsQuoteCh f = false
      · rw [quoteFieldCh, if_neg (by simp [hq])]; exact hf
      · rw [quoteFieldCh, if_pos (by simpa using hq)]; simp
  | f :: g :: t => simp [writeRowCh]

/-- `csv.reader` is a left inverse of `csv.writer` on one row. -/
theorem parseRow_writeRow (fs : List (List Char)) (h : fs ≠ []) :
    parseRowAux (writeRowCh fs) [] false = fs := by
  match fs with
  | [f] =>
    by_cases hf : f = []
    · subst hf
      show parseRowAux (writeRowCh [[]]) [] false = [[]]
      simp [writeRowCh, parseRowAux]
    · rw [writeRowCh, if_neg hf, parseRow_field_last]
  | f :: g :: t =>
    rw [writeRowCh, parseRow_field_comma, parseRow_writeRow (g :: t) (List.cons_ne_nil g t)]
    exact List.cons_ne_nil g t

/-- The string-level round trip for one record line. -/
theorem parseRowStr_writeRowStr (fs : List String) (h : fs ≠ []) :
    parseRowStr (writeRowStr fs) = fs := by
  rw [parseRowStr, writeRowStr, parseRowCh, strMk_data]
  rw [if_neg (writeRowCh_ne_nil _ (by simpa using h))]
  rw [parseRow_writeRow _ (by simpa using h)]
  rw [List.map_map]
  exact List.map_congr_left (fun s _ => strMk_data s) |>.trans (List.map_id _)

theorem writeRowStr_ne_empty (fs : List String) (h : fs ≠ []) : writeRowStr fs ≠ "" := by
  intro hx
  have hdata : (writeRowStr fs).data = "".data := congrArg String.data hx
  rw [writeRowStr, strMk_data] at hdata
  exact writeRowCh_ne_nil (fs.map String.data) (by simpa using h) hdata

theorem parseNonEmptyLine_writeRow (fields : List String) (h : fields ≠ []) :
    parseNonEmptyLine (writeRowStr fields) = some fields := by
  rw [parseNonEmptyLine, if_neg (writeRowStr_ne_empty fields h),
    parseRowStr_writeRowStr fields h]

theorem filterMap_written (rows : List Expense) :
    (rows.map (fun e => writeRowStr (toRow e))).filterMap parseNonEmptyLine =
      rows.map toRow := by
  induction rows with
  | nil => rfl
  | cons e rows ih =>
    rw [List.map_cons, List.filterMap_cons,
      parseNonEmptyLine_writeRow (toRow e) (by simp [toRow]), List.map_cons, ih]

theorem foldl_add_rows (rows : List Expense) : ∀ ls : List String,
    rows.foldl add_expense_row (some ls) =
      some (ls ++ rows.map (fun e => writeRowStr (toRow e))) := by
  induction rows with
  | nil => intro ls; simp
  | cons e rows ih =>
    intro ls
    rw [List.foldl_cons]
    have h1 : add_expense_row (some ls) e = some (ls ++ [writeRowStr (toRow e)]) := rfl
    rw [h1, ih]
    simp

/-! ## The claims -/

/-- C9: when the backing ledger file does not exist, `ensureInitialized`
creates it containing exactly the header row
`date,category,description,amount` and nothing else; when the file
already exists, it leaves its contents unchanged. -/
theorem ensure_file_exists_spec :
    ensure_file_exists none = some ["date,category,description,amount"] ∧
    headerLine = "date,category,description,amount" ∧
    ∀ ls : List String, ensure_file_exists (some ls) = some ls := by
  exact ⟨by decide, by decide, fun ls => rfl⟩

/-- C4: appending any sequence of (line-break-free) records to an
initially header-only ledger and reading it all back returns exactly that
sequence of records, in order. -/
theorem append_then_readAll (rows : List Expense)
    (_h : ∀ e ∈ rows, lineSafe e = true) :
    read_all_expenses (rows.foldl add_expense_row (some [headerLine])) = rows.map toRow := by
  rw [foldl_add_rows rows [headerLine], List.singleton_append]
  show read_lines (headerLine :: rows.map fun e => writeRowStr (toRow e)) = rows.map toRow
  rw [read_lines, List.tail_cons, filterMap_written]

/-- C4 witness: two concrete records, one with an embedded comma and
quote, survive the append/read round trip. -/
theorem append_then_readAll_witness :
    read_all_expenses ([(⟨"2025-03-01", "Food, snacks", "said \"hi\"", "12.50"⟩ : Expense),
        ⟨"2025-03-15", "Travel", "", "3.00"⟩].foldl add_expense_row (some [headerLine])) =
      [["2025-03-01", "Food, snacks", "said \"hi\"", "12.50"],
        ["2025-03-15", "Travel", "", "3.00"]] :=
  (append_then_readAll
    [⟨"2025-03-01", "Food, snacks", "said \"hi\"", "12.50"⟩,
      ⟨"2025-03-15", "Travel", "", "3.00"⟩] (by decide)).trans (by decide)

/-- C6: exporting a filtered record set and reading the exported file
back through the same parser reproduces the set exactly, record for
record and field for field. -/
theorem export_roundtrip (rs : List Expense) (year month : ℕ)
    (_h : ∀ e ∈ rs, lineSafe e = true) :
    read_all_expenses (some (export_monthly_report rs year month).2) = rs.map toRow := by
  show read_lines (headerLine :: rs.map fun e => writeRowStr (toRow e)) = rs.map toRow
  rw [read_lines, List.tail_cons, filterMap_written]

/-- C6 witness: a concrete two-record export (with a comma inside a
field) reads back exactly. -/
theorem export_roundtrip_witness :
    read_all_expenses (some (export_monthly_report
        [(⟨"2025-03-01", "Food", "Lunch, big", "12.50"⟩ : Expense),
          ⟨"2025-03-15", "Travel", "Bus", "3.00"⟩] 2025 3).2) =
      [["2025-03-01", "Food", "Lunch, big", "12.50"],
        ["2025-03-15", "Travel", "Bus", "3.00"]] :=
  (export_roundtrip [⟨"2025-03-01", "Food", "Lunch, big", "12.50"⟩,
    ⟨"2025-03-15", "Travel", "Bus", "3.00"⟩] 2025 3 (by decide)).trans (by decide)

theorem filterMap_guard_eq_filter (p : List String → Bool) (l : List (List String)) :
    l.filterMap (fun x => if p x then some x else none) = l.filter p := by
  induction l with
  | nil => rfl
  | cons x l ih =>
    by_cases h : p x <;> simp [List.filterMap_cons, List.filter_cons, h, ih]

/-- C2: `filterByMonth` returns exactly the rows whose date parses as
`YYYY-MM-DD` into the requested year and month, as a subsequence in
original order; a row whose date fails to parse is excluded rather than
an error. -/
theorem get_monthly_expenses_spec (fs : FS) (year month : ℕ) :
    get_monthly_expenses fs year month =
      (read_all_expenses fs).filter (monthMatches year month) ∧
    (get_monthly_expenses fs year month).Sublist (read_all_expenses fs) ∧
    ∀ row ∈ read_all_expenses fs, parse_date (rowDate row) = none →
      row ∉ get_monthly_expenses fs year month := by
  have hpoint : (fun exp => match parse_date (rowDate exp) with
      | none => none
      | some d => if d.1 = year ∧ d.2.1 = month then some exp else none) =
      (fun exp => if monthMatches year month exp then some exp else none) := by
    funext row
    rcases hp : parse_date (rowDate row) with _ | d
    · simp [monthMatches, hp]
    · by_cases hc : d.1 = year ∧ d.2.1 = month
      · simp [monthMatches, hp, hc]
      · have : ¬(d.1 = year && d.2.1 = month) = true := by
          simp only [Bool.and_eq_true, decide_eq_true_eq]
          exact hc
        simp [monthMatches, hp, hc, this]
  have h1 : get_monthly_expenses fs year month =
      (read_all_expenses fs).filter (monthMatches year month) := by
    rw [get_monthly_expenses, hpoint, filterMap_guard_eq_filter]
  refine ⟨h1, ?_, ?_⟩
  · rw [h1]
    exact List.filter_sublist _
  · intro row _ hnone hin
    rw [h1] at hin
    have hmm := (List.mem_filter.mp hin).2
    rw [monthMatches, hnone] at hmm
    cases hmm

/-- C2 witness: on a concrete ledger with two months and one corrupt
date, the March query keeps only the March row and the corrupt row is
excluded without an error. -/
theorem get_monthly_expenses_witness :
    ["bad-date", "X", "", "5"] ∉ get_monthly_expenses
        (some [headerLine, "2025-03-01,Food,Lunch,12.50", "2025-04-01,Food,Dinner,8.00",
          "bad-date,X,,5"]) 2025 3 ∧
    get_monthly_expenses (some [headerLine, "2025-03-01,Food,Lunch,12.50",
        "2025-04-01,Food,Dinner,8.00", "bad-date,X,,5"]) 2025 3 =
      [["2025-03-01", "Food", "Lunch", "12.50"]] :=
  ⟨(get_monthly_expenses_spec (some [headerLine, "2025-03-01,Food,Lunch,12.50",
      "2025-04-01,Food,Dinner,8.00", "bad-date,X,,5"]) 2025 3).2.2
      ["bad-date", "X", "", "5"] (by decide) (by decide),
    by decide⟩

/-- C7: a ledger line whose date does not parse is still returned by
`readAll` (no exception), and the monthly selection — hence every monthly
aggregate — is the same as for the ledger without that line. -/
theorem corrupt_line_tolerated (hdr : String) (pre post : List String) (c : String)
    (year month : ℕ) (hc : c ≠ "") (hbad : parse_date (rowDate (parseRowStr c)) = none) :
    parseRowStr c ∈ read_all_expenses (some (hdr :: (pre ++ c :: post))) ∧
    get_monthly_expenses (some (hdr :: (pre ++ c :: post))) year month =
      get_monthly_expenses (some (hdr :: (pre ++ post))) year month ∧
    monthly_report_totals (some (hdr :: (pre ++ c :: post))) year month =
      monthly_report_totals (some (hdr :: (pre ++ post))) year month := by
  have hpnel : parseNonEmptyLine c = some (parseRowStr c) := by
    rw [parseNonEmptyLine, if_neg hc]
  have hread : read_all_expenses (some (hdr :: (pre ++ c :: post))) =
      pre.filterMap parseNonEmptyLine ++ parseRowStr c :: post.filterMap parseNonEmptyLine := by
    show read_lines (hdr :: (pre ++ c :: post)) = _
    rw [read_lines, List.tail_cons, List.filterMap_append, List.filterMap_cons, hpnel]
  have hread2 : read_all_expenses (some (hdr :: (pre ++ post))) =
      pre.filterMap parseNonEmptyLine ++ post.filterMap parseNonEmptyLine := by
    show read_lines (hdr :: (pre ++ post)) = _
    rw [read_lines, List.tail_cons, List.filterMap_append]
  have hg : ∀ ls : List String, get_monthly_expenses (some ls) year month =
      (read_all_expenses (some ls)).filterMap (fun exp =>
        match parse_date (rowDate exp) with
        | none => none
        | some d => if d.1 = year ∧ d.2.1 = month then some exp else none) := fun ls => rfl
  have hmem : parseRowStr c ∈ read_all_expenses (some (hdr :: (pre ++ c :: post))) := by
    rw [hread]
    exact List.mem_append_right _ (List.mem_cons_self _ _)
  have hfilter : get_monthly_expenses (some (hdr :: (pre ++ c :: post))) year month =
      get_monthly_expenses (some (hdr :: (pre ++ post))) year month := by
    rw [hg, hg, hread, hread2, List.filterMap_append, List.filterMap_append,
      List.filterMap_cons, hbad]
  exact ⟨hmem, hfilter, by rw [monthly_report_totals, monthly_report_totals, hfilter]⟩

/-- C1: `summarize` maps each category occurring in the records — keyed
in order of first occurrence — to the accumulated total of that
category's amounts, and its grand total is the accumulated total of all
amounts, where accumulation is the code's left-to-right binary64 (`float`)
addition; on the claim's concrete example the accumulation is exact and
yields Food ↦ 15.50, Travel ↦ 20.00, grand total 35.50. -/
theorem summarize_spec :
    (∀ rs : List Expense,
      (summarize rs).1.map Prod.fst = firstOccur (rs.map Expense.category)) ∧
    (∀ rs : List Expense, ∀ c : String,
      lookupCat (summarize rs).1 c =
        if rs.filter (fun e => e.category = c) = [] then none
        else some (((rs.filter (fun e => e.category = c)).map famt).foldl fadd 0)) ∧
    (∀ rs : List Expense, (summarize rs).2 = (rs.map famt).foldl fadd 0) ∧
    summarize [⟨"2025-03-01", "Food", "", "10.00"⟩, ⟨"2025-03-02", "Food", "", "5.50"⟩,
        ⟨"2025-03-03", "Travel", "", "20.00"⟩] =
      ([("Food", 31/2), ("Travel", 20)], 71/2) := by
  refine ⟨?_, ?_, ?_, ?_⟩
  · intro rs
    rw [summarize, summarizeWith, foldl_step_keys fadd famt rs [] 0]
    rw [firstOccur, List.foldl_map]
    rfl
  · intro rs c
    rw [summarize, summarizeWith, foldl_step_lookup fadd famt rs [] 0 c]
    have hnone : lookupCat [] c = none := rfl
    rw [hnone, List.foldl_map]
  · intro rs
    rw [summarize, summarizeWith, foldl_step_snd fadd famt rs [] 0, List.foldl_map]
  · have h : summarize [⟨"2025-03-01", "Food", "", "10.00"⟩,
        ⟨"2025-03-02", "Food", "", "5.50"⟩, ⟨"2025-03-03", "Travel", "", "20.00"⟩] =
        ([("Food", mkRat 31 2), ("Travel", 20)], mkRat 71 2) := by decide
    rw [h]
    norm_num [Rat.mkRat_eq_div]

/-- C10 counterexample: with amounts 0.1 (category A), 0.2 and 0.3 (both
category B), float rounding makes the grand total differ from the sum of
the two per-category totals. -/
theorem grand_total_vs_category_sums_ce :
    (summarize [⟨"2025-03-01", "A", "", "0.1"⟩, ⟨"2025-03-02", "B", "", "0.2"⟩,
        ⟨"2025-03-03", "B", "", "0.3"⟩]).2 ≠
      sumVals (summarize [⟨"2025-03-01", "A", "", "0.1"⟩, ⟨"2025-03-02", "B", "", "0.2"⟩,
        ⟨"2025-03-03", "B", "", "0.3"⟩]).1 := by
  have h : summarize [⟨"2025-03-01", "A", "", "0.1"⟩, ⟨"2025-03-02", "B", "", "0.2"⟩,
      ⟨"2025-03-03", "B", "", "0.3"⟩] =
      ([("A", mkRat 3602879701896397 36028797018963968), ("B", mkRat 1 2)],
        mkRat 5404319552844596 9007199254740992) := by decide
  rw [h, sumVals]
  simp only [List.map_cons, List.map_nil, List.sum_cons, List.sum_nil]
  rw [Rat.mkRat_eq_div, Rat.mkRat_eq_div, Rat.mkRat_eq_div]
  norm_num

/-- C10 amended: with the exact decimal accumulation the spec prescribes,
the grand total always equals the sum of the per-category totals; the
code's binary64 accumulation satisfies this only up to float rounding
(see the counterexample). -/
theorem grand_total_eq_category_sums_exact (rs : List Expense) :
    (summarizeExact rs).2 = sumVals (summarizeExact rs).1 := by
  rw [summarizeExact, summarizeWith]
  exact foldl_qadd_grand_eq_sum rs [] 0 rfl

/-- C5 counterexample: summarizing amounts 0.10 and 0.20 gives a grand
total different from the exact mathematical sum 0.30: the accumulation is
binary floating point, not decimal-safe. -/
theorem decimal_safe_accumulation_ce :
    (summarize [⟨"2025-03-01", "A", "", "0.10"⟩,
        ⟨"2025-03-02", "B", "", "0.20"⟩]).2 ≠ 1/10 + 2/10 := by
  have h : (summarize [⟨"2025-03-01", "A", "", "0.10"⟩,
      ⟨"2025-03-02", "B", "", "0.20"⟩]).2 = mkRat 5404319552844596 18014398509481984 := by
    decide
  rw [h, Rat.mkRat_eq_div]
  norm_num

/-- C5 amended: `summarize` accumulates with correctly-rounded binary64
(`float`) addition; on 0.10 + 0.20 it returns the float
0.30000000000000004 (= 5404319552844596 / 2^54), not 0.30; the
two-decimal display rounding of that value is 0.30; the spec-modelled
decimal-safe accumulation returns exactly 0.30. -/
theorem binary64_accumulation_spec :
    (∀ a b : ℚ, fadd a b = roundB64 (a + b)) ∧
    (summarize [⟨"2025-03-01", "A", "", "0.10"⟩, ⟨"2025-03-02", "B", "", "0.20"⟩]).2 =
      mkRat 5404319552844596 18014398509481984 ∧
    round2 ((summarize [⟨"2025-03-01", "A", "", "0.10"⟩,
      ⟨"2025-03-02", "B", "", "0.20"⟩]).2) = 3/10 ∧
    (summarizeExact [⟨"2025-03-01", "A", "", "0.10"⟩,
      ⟨"2025-03-02", "B", "", "0.20"⟩]).2 = 3/10 := by
  refine ⟨fun a b => by rw [fadd, qadd_eq_add], by decide, ?_, ?_⟩
  · have h : round2 ((summarize [⟨"2025-03-01", "A", "", "0.10"⟩,
        ⟨"2025-03-02", "B", "", "0.20"⟩]).2) = mkRat 3 10 := by decide
    rw [h, Rat.mkRat_eq_div]
    norm_num
  · have h : (summarizeExact [⟨"2025-03-01", "A", "", "0.10"⟩,
        ⟨"2025-03-02", "B", "", "0.20"⟩]).2 = mkRat 3 10 := by decide
    rw [h, Rat.mkRat_eq_div]
    norm_num

/-- C3: a single input attempt with a malformed (non-empty) date, an
empty-after-strip category, a non-numeric amount, or a non-positive
amount is rejected with the distinct validation error for that field, and
the stored ledger file is unchanged (checked in the code's prompt order:
date, then category, then amount). -/
theorem append_rejects_invalid (fs : FS) (today : ℕ × ℕ × ℕ) (d c desc a : String) :
    (pyStrip d ≠ "" → parse_date (pyStrip d) = none →
      add_expense fs today d c desc a = (fs, some ValidationError.badDate)) ∧
    ((pyStrip d = "" ∨ parse_date (pyStrip d) ≠ none) → pyStrip c = "" →
      add_expense fs today d c desc a = (fs, some ValidationError.emptyCategory)) ∧
    ((pyStrip d = "" ∨ parse_date (pyStrip d) ≠ none) → pyStrip c ≠ "" →
      parseDecimal a = none →
      add_expense fs today d c desc a = (fs, some ValidationError.nonNumericAmount)) ∧
    (∀ q : ℚ, (pyStrip d = "" ∨ parse_date (pyStrip d) ≠ none) → pyStrip c ≠ "" →
      parseDecimal a = some q → q ≤ 0 →
      add_expense fs today d c desc a = (fs, some ValidationError.nonPositiveAmount)) := by
  have hdate_ok : (pyStrip d = "" ∨ parse_date (pyStrip d) ≠ none) →
      ¬(pyStrip d ≠ "" ∧ parse_date (pyStrip d) = none) := by
    rintro (h1 | h1) ⟨h2, h3⟩
    · exact h2 h1
    · exact h1 h3
  refine ⟨?_, ?_, ?_, ?_⟩
  · intro h1 h2
    have hval : validate_record d c a = some ValidationError.badDate := by
      rw [validate_record, if_pos ⟨h1, h2⟩]
    simp [add_expense, hval]
  · intro h1 h2
    have hval : validate_record d c a = some ValidationError.emptyCategory := by
      rw [validate_record, if_neg (hdate_ok h1), if_pos h2]
    simp [add_expense, hval]
  · intro h1 h2 h3
    have hval : validate_record d c a = some ValidationError.nonNumericAmount := by
      rw [validate_record, if_neg (hdate_ok h1), if_neg h2, h3]
    simp [add_expense, hval]
  · intro q h1 h2 h3 h4
    have hval : validate_record d c a = some ValidationError.nonPositiveAmount := by
      rw [validate_record, if_neg (hdate_ok h1), if_neg h2, h3]
      show (if roundB64 q ≤ 0 then some ValidationError.nonPositiveAmount else none) = _
      rw [if_pos (roundB64_nonpos q h4)]
    simp [add_expense, hval]

/-- C3 witness: one concrete rejected attempt for each invalid field, all
leaving the header-only ledger untouched. -/
theorem append_rejects_invalid_witness :
    add_expense (some [headerLine]) (2025, 10, 12) "2025-13-01" "Food" "x" "5" =
      (some [headerLine], some ValidationError.badDate) ∧
    add_expense (some [headerLine]) (2025, 10, 12) "" "  " "x" "5" =
      (some [headerLine], some ValidationError.emptyCategory) ∧
    add_expense (some [headerLine]) (2025, 10, 12) "" "Food" "x" "abc" =
      (some [headerLine], some ValidationError.nonNumericAmount) ∧
    add_expense (some [headerLine]) (2025, 10, 12) "" "Food" "x" "-4" =
      (some [headerLine], some ValidationError.nonPositiveAmount) :=
  ⟨(append_rejects_invalid (some [headerLine]) (2025, 10, 12) "2025-13-01" "Food" "x" "5").1
      (by decide) (by decide),
    (append_rejects_invalid (some [headerLine]) (2025, 10, 12) "" "  " "x" "5").2.1
      (Or.inl (by decide)) (by decide),
    (append_rejects_invalid (some [headerLine]) (2025, 10, 12) "" "Food" "x" "abc").2.2.1
      (Or.inl (by decide)) (by decide) (by decide),
    (append_rejects_invalid (some [headerLine]) (2025, 10, 12) "" "Food" "x" "-4").2.2.2
      (-4) (Or.inl (by decide)) (by decide) (by decide) (by norm_num)⟩

/-- C8: a record whose amount does not parse as a number contributes
nothing to the grand total nor to any category total of the monthly
summary (the code treats it as 0.0, and adding float zero to any total
the loop can hold leaves the total unchanged). -/
theorem nonnumeric_contributes_nothing (pre post : List Expense) (r : Expense)
    (h : parseDecimal r.amount = none) :
    (summarize (pre ++ r :: post)).2 = (summarize (pre ++ post)).2 ∧
    ∀ cat : String, valAt (summarize (pre ++ r :: post)).1 cat =
      valAt (summarize (pre ++ post)).1 cat := by
  have hamt : famt r = 0 := by rw [famt, h]
  rw [summarize, summarize, summarizeWith, summarizeWith]
  rw [List.foldl_append, List.foldl_append, List.foldl_cons]
  have hrepr := foldl_step_repr pre [] 0 (by intro p hp; cases hp) B64Repr_zero
  set s := List.foldl (stepSum fadd famt) ([], 0) pre with hs
  have hg : (stepSum fadd famt s r).2 = s.2 := by
    show fadd s.2 (famt r) = s.2
    rw [hamt]
    exact fadd_zero_of_repr s.2 hrepr.2
  have hct : ∀ cat, valAt (stepSum fadd famt s r).1 cat = valAt s.1 cat := by
    intro cat
    show valAt (updateCat fadd s.1 r.category (famt r)) cat = valAt s.1 cat
    rw [hamt, valAt_update]
    by_cases hc : cat = r.category
    · rw [if_pos hc, fadd_zero_of_repr _ (valAt_repr s.1 r.category hrepr.1), hc]
    · rw [if_neg hc]
  have heta1 : stepSum fadd famt s r = ((stepSum fadd famt s r).1, s.2) := by
    rw [← hg]
  have heta2 : s = (s.1, s.2) := rfl
  rw [heta1, heta2]
  have hcongr := foldl_step_congr fadd famt post (stepSum fadd famt s r).1 s.1 s.2 hct
  exact ⟨hcongr.1, hcongr.2⟩

/-- C8 witness: a record with amount `"abc"` between two real records
changes neither the grand total nor the Food total. -/
theorem nonnumeric_contributes_nothing_witness :
    (summarize [⟨"2025-03-01", "Food", "", "5.25"⟩, ⟨"2025-03-02", "Oops", "", "abc"⟩,
        ⟨"2025-03-03", "Food", "", "0.1"⟩]).2 =
      (summarize [⟨"2025-03-01", "Food", "", "5.25"⟩,
        ⟨"2025-03-03", "Food", "", "0.1"⟩]).2 ∧
    valAt (summarize [⟨"2025-03-01", "Food", "", "5.25"⟩, ⟨"2025-03-02", "Oops", "", "abc"⟩,
        ⟨"2025-03-03", "Food", "", "0.1"⟩]).1 "Food" =
      valAt (summarize [⟨"2025-03-01", "Food", "", "5.25"⟩,
        ⟨"2025-03-03", "Food", "", "0.1"⟩]).1 "Food" :=
  ⟨(nonnumeric_contributes_nothing [⟨"2025-03-01", "Food", "", "5.25"⟩]
      [⟨"2025-03-03", "Food", "", "0.1"⟩] ⟨"2025-03-02", "Oops", "", "abc"⟩ (by decide)).1,
    (nonnumeric_contributes_nothing [⟨"2025-03-01", "Food", "", "5.25"⟩]
      [⟨"2025-03-03", "Food", "", "0.1"⟩] ⟨"2025-03-02", "Oops", "", "abc"⟩
      (by decide)).2 "Food"⟩

/-- C7 witness: a concrete corrupted middle line is returned raw by
`readAll` and leaves the March aggregates untouched. -/
theorem corrupt_line_tolerated_witness :
    parseRowStr "2025-13-99,Oops,,7" ∈ read_all_expenses (some [headerLine,
      "2025-03-01,Food,Lunch,12.50", "2025-13-99,Oops,,7", "2025-03-15,Travel,Bus,3.00"]) ∧
    get_monthly_expenses (some [headerLine, "2025-03-01,Food,Lunch,12.50",
        "2025-13-99,Oops,,7", "2025-03-15,Travel,Bus,3.00"]) 2025 3 =
      get_monthly_expenses (some [headerLine, "2025-03-01,Food,Lunch,12.50",
        "2025-03-15,Travel,Bus,3.00"]) 2025 3 :=
  ⟨(corrupt_line_tolerated headerLine ["2025-03-01,Food,Lunch,12.50"]
      ["2025-03-15,Travel,Bus,3.00"] "2025-13-99,Oops,,7" 2025 3
      (by decide) (by decide)).1,
    (corrupt_line_tolerated headerLine ["2025-03-01,Food,Lunch,12.50"]
      ["2025-03-15,Travel,Bus,3.00"] "2025-13-99,Oops,,7" 2025 3
      (by decide) (by decide)).2.1⟩